import Mathlib

set_option autoImplicit false

namespace DaskCheckpoint

/-!
A shallow embedding of the dask-checkpoint repository, covering:

* `src/pipeline/encoder.py` (`DefaultEncoder.encode` / `DefaultEncoder.decode`),
* `src/dask_checkpoint/hasher.py` (`exclude`, `exclude_hasher`),
* `src/dask_checkpoint/task.py` (`task.key`, `task.__call__`),
* `src/dask_checkpoint/storage.py` (`Storage.__call__`, `Storage.from_chain`,
  `Storage.save`, `Storage.load`, `Storage.__contains__`,
  `Storage.optimize_load`, `Storage.optimize_save`, `_yield_tasks`),

together with the pieces of external collaborators the code relies on
(Python dict `del`, `collections.ChainMap`, `inspect.Signature.bind`,
`dask.config.set`, `dask.optimization.cull`).

Python is dynamically typed, so the value universe of each component is an
abstract type parameter.
-/

/-! ## Encoder pipeline (`src/pipeline/encoder.py`)

A stage of the pipeline is a pair of functions.  In Python the stages go
between arbitrary dynamically-typed values, so we model all of them over a
single value type `α`.
-/

/-- A reversible transform: the shape shared by the Encoder, Serializer,
Compressor and Encrypter protocols (an encode-direction function and a
decode-direction function). -/
structure Codec (α : Type) where
  enc : α → α
  dec : α → α

/-- Configuration of `DefaultEncoder`: the four class attributes
`encoders` (a tuple of generic encoders, or None), `serializer`,
`compressor` and `encrypter` (each possibly None). -/
structure DefaultEncoder (α : Type) where
  encoders : Option (List (Codec α))
  serializer : Option (Codec α)
  compressor : Option (Codec α)
  encrypter : Option (Codec α)

namespace DefaultEncoder

variable {α : Type}

/-- `DefaultEncoder.encode`: generic encoders in declared order, then
dumps, then compress, then encrypt; a stage that is None is skipped. -/
def encode (c : DefaultEncoder α) (value : α) : α :=
  let value := match c.encoders with
    | none => value
    | some es => es.foldl (fun v e => e.enc v) value
  let value := match c.serializer with
    | none => value
    | some s => s.enc value
  let value := match c.compressor with
    | none => value
    | some s => s.enc value
  match c.encrypter with
    | none => value
    | some s => s.enc value

/-- `DefaultEncoder.decode`: decrypt, then decompress, then loads, then the
generic encoders' decode functions — iterated in the same declared order as
in `encode` (the Python loop is `for encoder in cls.encoders`, identical in
both methods). -/
def decode (c : DefaultEncoder α) (value : α) : α :=
  let value := match c.encrypter with
    | none => value
    | some s => s.dec value
  let value := match c.compressor with
    | none => value
    | some s => s.dec value
  let value := match c.serializer with
    | none => value
    | some s => s.dec value
  match c.encoders with
    | none => value
    | some es => es.foldl (fun v e => e.dec v) value

/-- Modelled from the spec (not from the source): the decode order the spec
describes — decrypt, decompress, deserialize, then the generic decoders in
REVERSE declared order.  Used to compare the source's `decode` against the
spec's sentence. -/
def decode_specMirror (c : DefaultEncoder α) (value : α) : α :=
  let value := match c.encrypter with
    | none => value
    | some s => s.dec value
  let value := match c.compressor with
    | none => value
    | some s => s.dec value
  let value := match c.serializer with
    | none => value
    | some s => s.dec value
  match c.encoders with
    | none => value
    | some es => es.reverse.foldl (fun v e => e.dec v) value

/-- Decode with the generic decoders applied in declared (forward) order,
written as explicit stage composition. -/
def decode_declaredOrder (c : DefaultEncoder α) (value : α) : α :=
  match c.encoders with
  | none =>
      (match c.serializer with
        | none => (fun v => v)
        | some s => s.dec)
      ((match c.compressor with
        | none => (fun v => v)
        | some s => s.dec)
      ((match c.encrypter with
        | none => (fun v => v)
        | some s => s.dec) value))
  | some es =>
      es.foldl (fun v e => e.dec v)
        ((match c.serializer with
          | none => (fun v => v)
          | some s => s.dec)
        ((match c.compressor with
          | none => (fun v => v)
          | some s => s.dec)
        ((match c.encrypter with
          | none => (fun v => v)
          | some s => s.dec) value)))

end DefaultEncoder

/-- A two-element encoder tuple over the integers whose stages are honest
two-sided inverse pairs: add-one and negate. -/
def addOneCodec : Codec Int := ⟨fun x => x + 1, fun x => x - 1⟩

/-- Negation codec, its own inverse. -/
def negCodec : Codec Int := ⟨fun x => -x, fun x => -x⟩

/-- A concrete configuration with two generic encoders and every optional
stage disabled. -/
def twoEncoderCfg : DefaultEncoder Int :=
  { encoders := some [addOneCodec, negCodec]
  , serializer := none
  , compressor := none
  , encrypter := none }

/-- A codec pair is a two-sided inverse: decode undoes encode and encode
undoes decode. -/
def Codec.IsInversePair {α : Type} (c : Codec α) : Prop :=
  (∀ x, c.dec (c.enc x) = x) ∧ (∀ x, c.enc (c.dec x) = x)

/-- A configuration with a single generic encoder plus a serializer, used
as a concrete instance of the amended round-trip theorem. -/
def oneEncoderCfg : DefaultEncoder Int :=
  { encoders := some [negCodec]
  , serializer := some addOneCodec
  , compressor := none
  , encrypter := none }

/-- C4 counterexample: on the two-stage configuration, the source's
`decode` (declared order) disagrees with the spec's mirror order at the
concrete input -1 = encode 0, and all four stage pairs are two-sided
inverses. -/
theorem C4_counterexample :
    DefaultEncoder.decode twoEncoderCfg (-1) = 2 ∧
    DefaultEncoder.decode_specMirror twoEncoderCfg (-1) = 0 ∧
    DefaultEncoder.decode twoEncoderCfg (-1) ≠
      DefaultEncoder.decode_specMirror twoEncoderCfg (-1) := by
  refine ⟨rfl, rfl, ?_⟩
  decide

/-- C4 (amended): `DefaultEncoder.decode` applies decrypt, then decompress,
then deserialize, then the generic decoders in the DECLARED order of the
generic encoders (the same iteration order as `encode`), each disabled
stage acting as the identity. -/
theorem C4_decode_declared_order {α : Type} (c : DefaultEncoder α) (v : α) :
    DefaultEncoder.decode c v = DefaultEncoder.decode_declaredOrder c v := by
  unfold DefaultEncoder.decode DefaultEncoder.decode_declaredOrder
  cases c.encoders <;> cases c.serializer <;> cases c.compressor <;>
    cases c.encrypter <;> rfl

/-- C5 counterexample: both stages of the two-encoder configuration are
two-sided inverse pairs, every optional stage is disabled, yet
decode (encode 0) = 2, not 0: the round trip fails because decode applies
the generic decoders in declared order instead of reverse order. -/
theorem C5_counterexample :
    addOneCodec.IsInversePair ∧ negCodec.IsInversePair ∧
    DefaultEncoder.decode twoEncoderCfg (DefaultEncoder.encode twoEncoderCfg 0) = 2 ∧
    DefaultEncoder.decode twoEncoderCfg (DefaultEncoder.encode twoEncoderCfg 0) ≠ 0 := by
  refine ⟨⟨fun x => by simp [addOneCodec], fun x => by simp [addOneCodec]⟩,
          ⟨fun x => by simp [negCodec], fun x => by simp [negCodec]⟩, rfl, by decide⟩

/-- C5 (amended): decode (encode v) = v holds for every combination of
enabled/disabled serializer, compressor and encrypter and a generic encoder
tuple of length at most one (in particular a disabled stage acts as identity
passthrough), assuming each configured stage is a two-sided inverse pair.
With two or more non-commuting generic encoders it fails
(see the counterexample). -/
theorem C5_roundtrip_amended {α : Type} (c : DefaultEncoder α) (v : α)
    (hes : ∀ es ∈ c.encoders, ∀ e ∈ es, e.IsInversePair)
    (hlen : ∀ es ∈ c.encoders, es.length ≤ 1)
    (hs : ∀ s ∈ c.serializer, s.IsInversePair)
    (hc : ∀ s ∈ c.compressor, s.IsInversePair)
    (he : ∀ s ∈ c.encrypter, s.IsInversePair) :
    DefaultEncoder.decode c (DefaultEncoder.encode c v) = v := by
  rcases c with ⟨eso, so, co, eo⟩
  simp only [DefaultEncoder.encode, DefaultEncoder.decode] at *
  rcases eso with _ | es
  · rcases so with _ | s <;> rcases co with _ | cp <;> rcases eo with _ | en <;>
      simp_all [Codec.IsInversePair]
  · have hlen1 : es.length ≤ 1 := hlen es rfl
    match es, hlen1 with
    | [], _ =>
      rcases so with _ | s <;> rcases co with _ | cp <;> rcases eo with _ | en <;>
        simp_all [Codec.IsInversePair]
    | [e], _ =>
      have hep := hes [e] rfl e (by simp)
      rcases so with _ | s <;> rcases co with _ | cp <;> rcases eo with _ | en <;>
        simp_all [Codec.IsInversePair]

/-- Witness for the amended C5 at a concrete configuration: one generic
encoder (negation) with an add-one serializer round-trips the value 5. -/
theorem C5_roundtrip_amended_witness :
    DefaultEncoder.decode oneEncoderCfg (DefaultEncoder.encode oneEncoderCfg 5) = 5 :=
  C5_roundtrip_amended oneEncoderCfg 5
    (fun es hes e h => by
      simp only [oneEncoderCfg, Option.mem_def, Option.some.injEq] at hes
      subst hes
      simp only [List.mem_singleton] at h
      subst h
      exact ⟨fun x => by simp [negCodec], fun x => by simp [negCodec]⟩)
    (fun es hes => by
      simp only [oneEncoderCfg, Option.mem_def, Option.some.injEq] at hes
      subst hes; simp)
    (fun s hs => by
      simp only [oneEncoderCfg, Option.mem_def, Option.some.injEq] at hs
      subst hs
      exact ⟨fun x => by simp [addOneCodec], fun x => by simp [addOneCodec]⟩)
    (fun s hs => by simp [oneEncoderCfg] at hs)
    (fun s hs => by simp [oneEncoderCfg] at hs)

/-! ## Hasher (`src/dask_checkpoint/hasher.py`) and task keys (`task.py`)

Bound-argument mappings are Python dicts keyed by parameter name;
we model them as association lists.  A base hasher may fail on values
with no deterministic structural hash, so hashers return `Except`,
the error carrying the Python exception payload.
-/

/-- Python `del kwargs[name]`: removes the binding of the key, raising
KeyError (modelled as `.error` carrying the key) when the key is absent. -/
def delKey {β : Type} (k : String) (kw : List (String × β)) :
    Except String (List (String × β)) :=
  if kw.any (fun p => p.1 = k) then .ok (kw.filter (fun p => p.1 ≠ k)) else .error k

/-- The mapping that `exclude_hasher` passes to the base hasher: each
excluded name deleted in turn (the loop is: for name in names, del
kwargs[name]). -/
def excludeDict {β : Type} (names : List String) (kwargs : List (String × β)) :
    Except String (List (String × β)) :=
  List.foldlM (fun kw n => delKey n kw) kwargs names

/-- `hasher.exclude`: builds a hasher that deletes the excluded parameter
names from the bound-arguments mapping and applies the base hasher to what
remains. -/
def exclude {β γ : Type} (names : List String)
    (hasher : List (String × β) → Except String γ)
    (kwargs : List (String × β)) : Except String γ := do
  let kw ← excludeDict names kwargs
  hasher kw

/-- `task.key`: the task name concatenated with the hash of the bound
arguments. -/
def taskKey {β : Type} (name : String)
    (hasher : List (String × β) → Except String String)
    (kwargs : List (String × β)) : Except String String :=
  (hasher kwargs).map (fun h => name ++ h)

/-- `inspect.Signature.bind` as used by `task.__call__`: the resulting
`bound.arguments` mapping holds only the explicitly supplied parameters;
declared defaults are not applied (that would require `apply_defaults`,
which the source never calls).  The declared defaults are a parameter here
only to record that they do not enter the result. -/
def boundArguments {β : Type} (defaults : List (String × β))
    (passed : List (String × β)) : List (String × β) :=
  passed

/-- The delayed node `task.__call__` builds once the key is derived. -/
structure DelayedNode (β : Type) where
  key : String
  args : List (String × β)

/-- `task.__call__`: bind the explicit arguments, derive the key from
`bound.arguments`, then build the delayed node carrying that key.  An
exception escaping the hasher aborts the call before any node exists. -/
def taskCall {β : Type} (name : String)
    (hasher : List (String × β) → Except String String)
    (defaults passed : List (String × β)) : Except String (DelayedNode β) := do
  let key ← taskKey name hasher (boundArguments defaults passed)
  pure ⟨key, passed⟩

theorem delKey_of_mem {β : Type} (k : String) (l : List (String × β)) (x : β)
    (hx : (k, x) ∈ l) :
    delKey k l = .ok (l.filter (fun p => p.1 ≠ k)) := by
  unfold delKey
  rw [if_pos]
  exact List.any_eq_true.mpr ⟨(k, x), hx, by simp⟩

theorem delKey_of_not_mem {β : Type} (k : String) (l : List (String × β))
    (hx : ∀ p ∈ l, p.1 ≠ k) :
    delKey k l = .error k := by
  unfold delKey
  rw [if_neg]
  simp only [List.any_eq_true, decide_eq_true_eq, not_exists, not_and]
  exact fun p hp => hx p hp

/-- C7: with hasher exclude("y"), two invocations that pass equal values
for every non-excluded parameter yield equal identity keys, for arbitrary
excluded values A and B and for EVERY base hasher (in particular one that
would fail on A or B: the excluded value is never passed to it — the
mapping handed to the base hasher is the same "y"-free list in both
invocations). -/
theorem C7_exclude_insensitive {β γ : Type}
    (hash : List (String × β) → Except String γ)
    (hashS : List (String × β) → Except String String) (name : String)
    (pre post : List (String × β)) (A B : β) :
    taskKey name (exclude ["y"] hashS) (pre ++ ("y", A) :: post)
      = taskKey name (exclude ["y"] hashS) (pre ++ ("y", B) :: post) ∧
    exclude ["y"] hash (pre ++ ("y", A) :: post)
      = hash (pre.filter (fun p => p.1 ≠ "y") ++ post.filter (fun p => p.1 ≠ "y")) ∧
    exclude ["y"] hash (pre ++ ("y", B) :: post)
      = hash (pre.filter (fun p => p.1 ≠ "y") ++ post.filter (fun p => p.1 ≠ "y")) := by
  have key : ∀ x : β, excludeDict ["y"] (pre ++ ("y", x) :: post)
      = .ok (pre.filter (fun p => p.1 ≠ "y") ++ post.filter (fun p => p.1 ≠ "y")) := by
    intro x
    unfold excludeDict
    simp only [List.foldlM]
    rw [delKey_of_mem "y" _ x (by simp)]
    simp [List.filter_append]
  refine ⟨?_, ?_, ?_⟩
  · unfold taskKey exclude
    rw [key A, key B]
  · unfold exclude
    rw [key A]
    rfl
  · unfold exclude
    rw [key B]
    rfl

/-- C10: with hasher exclude("y") and a declared default for y, a call
that does not explicitly pass y fails with KeyError "y" at key-derivation
time: bind does not apply the default, and del of the absent key raises.
The Except result is an error, so no delayed node is ever built. -/
theorem C10_missing_excluded_default {β : Type}
    (hash : List (String × β) → Except String String) (name : String)
    (defaults passed : List (String × β)) (d : β)
    (hdef : ("y", d) ∈ defaults)
    (hpass : ∀ p ∈ passed, p.1 ≠ "y") :
    taskCall name (exclude ["y"] hash) defaults passed = .error "y" := by
  unfold taskCall taskKey exclude excludeDict boundArguments
  simp only [List.foldlM]
  rw [delKey_of_not_mem "y" passed hpass]
  rfl

/-- Witness for C10: a concrete task with default y = 0, called with only
x supplied, fails with KeyError "y". -/
theorem C10_missing_excluded_default_witness :
    taskCall "func/" (exclude ["y"] (fun _ => .ok "hash"))
      [("y", (0 : Int))] [("x", 1)] = .error "y" :=
  C10_missing_excluded_default (fun _ => .ok "hash") "func/"
    [("y", (0 : Int))] [("x", 1)] 0 (by simp) (by decide)

/-! ## Store chaining (`Storage.from_chain`, `Storage.save`, `Storage.load`)

A Storage's backing `data` is a mutable mapping from string keys to bytes;
`from_chain` wraps the data of several storages in a `collections.ChainMap`.
We model a single mapping as a function to `Option` and a ChainMap as the
list of its underlying mappings.
-/

/-- ChainMap lookup: scan the underlying maps in order, return the first
hit (Python ChainMap missing-key access raises; absence is `none`). -/
def chainLookup {V : Type} : List (String → Option V) → String → Option V
  | [], _ => none
  | m :: ms, k =>
    match m k with
    | some v => some v
    | none => chainLookup ms k

/-- ChainMap membership: the key is in some underlying map (equivalently,
lookup succeeds). -/
def chainMem {V : Type} (ms : List (String → Option V)) (k : String) : Bool :=
  (chainLookup ms k).isSome

/-- Pointwise update of a single mutable mapping. -/
def mapSet {V : Type} (m : String → Option V) (k : String) (v : V) :
    String → Option V :=
  fun q => if q = k then some v else m q

/-- ChainMap assignment: `cm[k] = v` writes into the first underlying map
only.  (`from_chain` is called with at least one storage, so the chain is
nonempty in every use modelled here.) -/
def chainSet {V : Type} : List (String → Option V) → String → V → List (String → Option V)
  | [], _, _ => []
  | m :: ms, k, v => mapSet m k v :: ms

/-- The encode/decode pair a Task carries (its encoder). -/
structure TaskCodec (V : Type) where
  encode : V → V
  decode : V → V

/-- `Storage.load` on a chained storage: read the raw bytes through the
ChainMap, decode with the task's encoder. -/
def storageLoad {V : Type} (data : List (String → Option V)) (k : String)
    (t : TaskCodec V) : Option V :=
  (chainLookup data k).map t.decode

/-- `Storage.save` on a chained storage: `self.data[key] = task.encode(value)`,
a ChainMap assignment. -/
def storageSave {V : Type} (data : List (String → Option V)) (k : String)
    (t : TaskCodec V) (v : V) : List (String → Option V) :=
  chainSet data k (t.encode v)

/-- C6: in a chain, membership and lookup resolve a key from the first
store in argument order that contains it, and a save through the chain
rewrites only the first store, leaving every later store unchanged. -/
theorem C6_chain_semantics {V : Type} (pre post : List (String → Option V))
    (m : String → Option V) (k : String) (v : V)
    (hpre : ∀ m2 ∈ pre, m2 k = none) (hk : m k = some v) :
    chainLookup (pre ++ m :: post) k = some v ∧
    chainMem (pre ++ m :: post) k = true ∧
    (storageLoad (pre ++ m :: post) k = fun t => some (t.decode v)) ∧
    ∀ (m0 : String → Option V) (rest : List (String → Option V)) (q : String)
      (t : TaskCodec V) (w : V),
      storageSave (m0 :: rest) q t w = mapSet m0 q (t.encode w) :: rest := by
  have hlook : chainLookup (pre ++ m :: post) k = some v := by
    induction pre with
    | nil => simp [chainLookup, hk]
    | cons m2 rest2 ih =>
      have h2 : m2 k = none := hpre m2 (by simp)
      simp only [List.cons_append, chainLookup, h2]
      exact ih (fun m3 h3 => hpre m3 (by simp [h3]))
  refine ⟨hlook, ?_, ?_, ?_⟩
  · simp [chainMem, hlook]
  · funext t
    simp [storageLoad, hlook]
  · intro m0 rest q t w
    rfl

/-- Concrete chained stores for the C6 witness: store1 holds key "k",
store2 holds key "k2". -/
def chainStore1 : String → Option String :=
  fun q => if q = "k" then some "a" else none

/-- Second store of the C6 witness scenario. -/
def chainStore2 : String → Option String :=
  fun q => if q = "k2" then some "b" else none

/-- An identity encoder used in the C6 witness. -/
def idTaskCodec : TaskCodec String := ⟨fun v => v, fun v => v⟩

/-- Witness for C6: "k" resolves from store1, "k2" resolves from store2,
and a save through the chain lands in store1 only. -/
theorem C6_chain_semantics_witness :
    chainLookup [chainStore1, chainStore2] "k" = some "a" ∧
    chainLookup [chainStore1, chainStore2] "k2" = some "b" ∧
    storageSave [chainStore1, chainStore2] "k3" idTaskCodec "c"
      = mapSet chainStore1 "k3" (idTaskCodec.encode "c") :: [chainStore2] := by
  have h1 := C6_chain_semantics [] [chainStore2] chainStore1 "k" "a"
    (by simp) (by simp [chainStore1])
  have h2 := C6_chain_semantics [chainStore1] [] chainStore2 "k2" "b"
    (by intro m2 hm2
        simp only [List.mem_singleton] at hm2
        subst hm2
        simp [chainStore1])
    (by simp [chainStore2])
  exact ⟨h1.1, h2.1, h1.2.2.2 chainStore1 [chainStore2] "k3" idTaskCodec "c"⟩

/-! ## `Storage.__contains__` -/

/-- The possible Python arguments to `Storage.__contains__`: a dask Delayed
(carrying its string key), a plain string (as `task.key` is), or any other
object. -/
inductive ContainsArg where
  | delayed (key : String)
  | str (s : String)
  | otherObj

/-- Rank used to justify the single recursive step of `__contains__`. -/
def ContainsArg.rank : ContainsArg → Nat
  | .delayed _ => 1
  | _ => 0

/-- `Storage.__contains__`: a Delayed argument recurses once on its string
key (the source line is: return task.key in self); every non-Delayed
argument falls through the isinstance check and raises NotImplementedError
(modelled as `.error ()`).  The storage's data mapping is a parameter only
to record that the result never consults it. -/
def storageContains {V : Type} (data : String → Option V) :
    ContainsArg → Except Unit Bool
  | .delayed k => storageContains data (.str k)
  | .str _ => .error ()
  | .otherObj => .error ()
termination_by a => a.rank
decreasing_by simp [ContainsArg.rank]

/-- C9: the membership test never returns a boolean: a Delayed argument
recurses once with its string key, and every argument ends in
NotImplementedError — whatever the contents of the data mapping. -/
theorem C9_contains_always_raises {V : Type} (data : String → Option V)
    (a : ContainsArg) :
    storageContains data a = .error () ∧
    (∀ k, storageContains data (.delayed k) = storageContains data (.str k)) := by
  constructor
  · cases a <;> simp [storageContains]
  · intro k
    simp [storageContains]

/-! ## Scope composition (`Storage.__call__`)

The active dask configuration key "optimizations" holds a tuple of
optimizer callbacks.  `Storage.__call__` classifies each one: a bound
`Storage.optimize_save` is recognised by the isinstance/`__func__` test;
everything else (bound `optimize_load` methods, arbitrary optimizers) is
not a Save.  The type `σ` identifies the storage instance a method is
bound to.
-/

/-- An entry of the active optimizations tuple. -/
inductive Opt (σ : Type) where
  | load (s : σ)
  | save (s : σ)
  | otherOpt (id : Nat)
deriving DecidableEq

/-- Recognised by the for-loop test: is this a bound Storage.optimize_save? -/
def Opt.isSave {σ : Type} : Opt σ → Bool
  | .save _ => true
  | _ => false

/-- Is this a bound Storage.optimize_load?  (The source never tests this;
it is used only to state the load-before-save ordering property.) -/
def Opt.isLoad {σ : Type} : Opt σ → Bool
  | .load _ => true
  | _ => false

/-- The for/else search in `Storage.__call__`: the prefix before the first
bound optimize_save and the suffix from it on; none when the loop falls
through to its else branch. -/
def splitFirstSave {σ : Type} : List (Opt σ) → Option (List (Opt σ) × List (Opt σ))
  | [] => none
  | o :: rest =>
    if o.isSave then some ([], o :: rest)
    else
      match splitFirstSave rest with
      | some (l, r) => some (o :: l, r)
      | none => none

/-- The optimizations tuple `Storage.__call__` installs, as a function of
the save and nested flags and the currently active tuple. -/
def callOpts {σ : Type} (s : σ) (saveFlag nested : Bool) (cur : List (Opt σ)) :
    List (Opt σ) :=
  if !nested then
    if saveFlag then [.load s, .save s] else [.load s]
  else if !saveFlag then .load s :: cur
  else
    match splitFirstSave cur with
    | some (loads, saves) => .load s :: (loads ++ .save s :: saves)
    | none => .load s :: (cur ++ [.save s])

/-- Every Load precedes every Save: from the first Save on, no entry is a
Load. -/
def loadsBeforeSaves {σ : Type} : List (Opt σ) → Bool
  | [] => true
  | o :: rest =>
    if o.isSave then rest.all (fun x => !x.isLoad) else loadsBeforeSaves rest

theorem splitFirstSave_spec {σ : Type} (cur : List (Opt σ)) :
    splitFirstSave cur =
      if cur.any Opt.isSave then
        some (cur.takeWhile (fun o => !o.isSave), cur.dropWhile (fun o => !o.isSave))
      else none := by
  induction cur with
  | nil => rfl
  | cons o rest ih =>
    by_cases h : o.isSave = true
    · simp [splitFirstSave, h, List.takeWhile_cons, List.dropWhile_cons]
    · simp only [Bool.not_eq_true] at h
      by_cases hr : rest.any Opt.isSave = true <;>
        simp [splitFirstSave, h, ih, hr, List.takeWhile_cons, List.dropWhile_cons]

theorem loadsBeforeSaves_append_nosave {σ : Type} (l r : List (Opt σ))
    (hl : ∀ o ∈ l, o.isSave = false) :
    loadsBeforeSaves (l ++ r) = loadsBeforeSaves r := by
  induction l with
  | nil => rfl
  | cons o rest ih =>
    have ho : o.isSave = false := hl o (by simp)
    simp only [List.cons_append, loadsBeforeSaves, ho, Bool.false_eq_true, if_false]
    exact ih (fun x hx => hl x (by simp [hx]))

theorem loadsBeforeSaves_dropWhile {σ : Type} (cur : List (Opt σ))
    (h : loadsBeforeSaves cur = true) :
    (cur.dropWhile (fun o => !o.isSave)).all (fun x => !x.isLoad) = true := by
  induction cur with
  | nil => simp
  | cons o rest ih =>
    by_cases ho : o.isSave = true
    · have hload : o.isLoad = false := by cases o <;> simp_all [Opt.isSave, Opt.isLoad]
      have hrest : rest.all (fun x => !x.isLoad) = true := by
        simpa [loadsBeforeSaves, ho] using h
      simp [List.dropWhile_cons, ho, hload, hrest]
    · simp only [Bool.not_eq_true] at ho
      have hrec : loadsBeforeSaves rest = true := by
        simpa [loadsBeforeSaves, ho] using h
      simp [List.dropWhile_cons, ho, ih hrec]

/-- C1: entering a scope with save=True and nested=True inserts the new
Load before all existing optimizers and the new Save immediately before
the first existing bound optimize_save; with no existing Save, the new
Save goes after all existing optimizers.  When every Load precedes every
Save in the current tuple (as is the case for every tuple this code
builds), the same holds of the resulting tuple. -/
theorem C1_enter_save_nested {σ : Type} (s : σ) (cur : List (Opt σ)) :
    (cur.any Opt.isSave = true →
      callOpts s true true cur
        = Opt.load s :: (cur.takeWhile (fun o => !o.isSave)
            ++ Opt.save s :: cur.dropWhile (fun o => !o.isSave))) ∧
    (cur.any Opt.isSave = false →
      callOpts s true true cur = Opt.load s :: (cur ++ [Opt.save s])) ∧
    (loadsBeforeSaves cur = true →
      loadsBeforeSaves (callOpts s true true cur) = true) := by
  have hfound : cur.any Opt.isSave = true →
      callOpts s true true cur
        = Opt.load s :: (cur.takeWhile (fun o => !o.isSave)
            ++ Opt.save s :: cur.dropWhile (fun o => !o.isSave)) := by
    intro h
    simp [callOpts, splitFirstSave_spec, h]
  have hnone : cur.any Opt.isSave = false →
      callOpts s true true cur = Opt.load s :: (cur ++ [Opt.save s]) := by
    intro h
    simp [callOpts, splitFirstSave_spec, h]
  refine ⟨hfound, hnone, ?_⟩
  intro h
  by_cases hany : cur.any Opt.isSave = true
  · have htake : ∀ o ∈ cur.takeWhile (fun o => !o.isSave), o.isSave = false := by
      intro o ho
      have := List.mem_takeWhile_imp ho
      simpa using this
    rw [hfound hany]
    show loadsBeforeSaves (cur.takeWhile (fun o => !o.isSave)
        ++ Opt.save s :: cur.dropWhile (fun o => !o.isSave)) = true
    rw [loadsBeforeSaves_append_nosave _ _ htake]
    show (cur.dropWhile (fun o => !o.isSave)).all (fun x => !x.isLoad) = true
    exact loadsBeforeSaves_dropWhile cur h
  · have hany2 : cur.any Opt.isSave = false := by simpa using hany
    have hcur : ∀ o ∈ cur, o.isSave = false := by
      intro o ho
      have := List.any_eq_false.mp hany2 o ho
      simpa using this
    rw [hnone hany2]
    show loadsBeforeSaves (cur ++ [Opt.save s]) = true
    rw [loadsBeforeSaves_append_nosave _ _ hcur]
    rfl

/-- Witness for C1: entering storage 1 with save=True, nested=True over an
active tuple (load 0, other 7, save 0) inserts load 1 at the front and
save 1 immediately before save 0, and the result keeps loads before
saves. -/
theorem C1_enter_save_nested_witness :
    callOpts (1 : Nat) true true [Opt.load 0, Opt.otherOpt 7, Opt.save 0]
      = [Opt.load 1, Opt.load 0, Opt.otherOpt 7, Opt.save 1, Opt.save 0] ∧
    loadsBeforeSaves
      (callOpts (1 : Nat) true true [Opt.load 0, Opt.otherOpt 7, Opt.save 0]) = true := by
  have h := C1_enter_save_nested (1 : Nat) [Opt.load 0, Opt.otherOpt 7, Opt.save 0]
  refine ⟨?_, h.2.2 (by decide)⟩
  rw [h.1 (by decide)]
  decide

/-! ## Scope enter/exit (`Storage.__call__` as a context manager) -/

/-- `dask.config.set` used as a context manager: it records the current
value of the optimizations key, installs the new one, runs the body (which
sees the installed tuple and either returns a value with the final config
it produced, or raises), and its `__exit__` — which Python runs on both
the normal and the exceptional path — restores the recorded value. -/
def daskConfigSet {σ E A : Type} (newOpts : List (Opt σ))
    (body : List (Opt σ) → Except E (A × List (Opt σ)))
    (cur : List (Opt σ)) : Except E A × List (Opt σ) :=
  match body newOpts with
  | .ok (a, _) => (.ok a, cur)
  | .error e => (.error e, cur)

/-- The single-use context manager returned by `Storage.__call__`: compute
the new optimizations tuple from the flags and the current one, then run
the body under `dask.config.set`. -/
def storageScope {σ E A : Type} (s : σ) (saveFlag nested : Bool)
    (body : List (Opt σ) → Except E (A × List (Opt σ)))
    (cur : List (Opt σ)) : Except E A × List (Opt σ) :=
  daskConfigSet (callOpts s saveFlag nested cur) body cur

/-- C8: after the scope exits, the active optimizations tuple equals
exactly its value before entry, for every combination of the save and
nested flags, whether the body returned normally or raised. -/
theorem C8_scope_restores {σ E A : Type} (s : σ) (saveFlag nested : Bool)
    (body : List (Opt σ) → Except E (A × List (Opt σ)))
    (cur : List (Opt σ)) :
    (storageScope s saveFlag nested body cur).2 = cur ∧
    (∀ a after, body (callOpts s saveFlag nested cur) = .ok (a, after) →
      storageScope s saveFlag nested body cur = (.ok a, cur)) ∧
    (∀ e, body (callOpts s saveFlag nested cur) = .error e →
      storageScope s saveFlag nested body cur = (.error e, cur)) := by
  refine ⟨?_, ?_, ?_⟩
  · unfold storageScope daskConfigSet
    rcases body (callOpts s saveFlag nested cur) with e | ⟨a, after⟩ <;> rfl
  · intro a after hb
    unfold storageScope daskConfigSet
    rw [hb]
  · intro e hb
    unfold storageScope daskConfigSet
    rw [hb]

/-- Witness for C8: a body that raises inside a save=True nested=True
scope still leaves the prior tuple (load 0) active on exit. -/
theorem C8_scope_restores_witness :
    (storageScope (1 : Nat) true true
        (fun opts => (.error 42 : Except Nat (Unit × List (Opt Nat))))
        [Opt.load 0]).2 = [Opt.load 0] ∧
    storageScope (1 : Nat) true true
        (fun opts => (.error 42 : Except Nat (Unit × List (Opt Nat))))
        [Opt.load 0]
      = (.error 42, [Opt.load 0]) := by
  have h := C8_scope_restores (1 : Nat) true true
    (fun opts => (.error 42 : Except Nat (Unit × List (Opt Nat)))) [Opt.load 0]
  exact ⟨h.1, h.2.2 42 rfl⟩

/-! ## Graph rewriting (`Storage.optimize_load`, `Storage.optimize_save`,
`_yield_tasks`, `dask.optimization.cull`)

A dask graph maps string keys to entry tuples.  `_yield_tasks` looks at
the head of each tuple (or the element after a leading dask `apply`) and
selects Task instances whose save flag is set.  The value universe of the
execution engine is an abstract type `V`.
-/

/-- A Task object as it appears at the head of a graph tuple: its save
flag, the wrapped callable, and its encoder pair. -/
structure TaskObj (V : Type) where
  save : Bool
  run : List V → V
  encode : V → V
  decode : V → V

/-- An argument slot of a graph tuple: a key reference to another node or
an inline literal value. -/
inductive GArg (V : Type) where
  | ref (k : String)
  | lit (v : V)

/-- A graph entry: a task tuple (task, *params); an apply tuple
(apply, task, args, kwargs); a load instruction
(storage.load, literal(key), task) as injected by optimize_load; a save
instruction (storage.save, literal(key), task, original-tuple) as injected
by optimize_save; or a tuple headed by an arbitrary other callable. -/
inductive GExpr (V : Type) where
  | taskCall (t : TaskObj V) (args : List (GArg V))
  | applyCall (t : TaskObj V) (args : List (GArg V))
  | loadInstr (k : String) (t : TaskObj V)
  | saveInstr (k : String) (t : TaskObj V) (inner : GExpr V)
  | otherCall (f : List V → V) (args : List (GArg V))

/-- The key references among a tuple's argument slots. -/
def refKeys {V : Type} (args : List (GArg V)) : List String :=
  args.filterMap fun a =>
    match a with
    | .ref k => some k
    | .lit _ => none

/-- The dependency keys dask's traversal finds inside an entry (every key
occurring in the tuple, searched recursively).  A load instruction wraps
its key in a dask literal, which the traversal does not treat as a key, so
a load instruction has no dependencies; a save instruction still contains
the original tuple, so it keeps that tuple's dependencies. -/
def GExpr.deps {V : Type} : GExpr V → List String
  | .taskCall _ args => refKeys args
  | .applyCall _ args => refKeys args
  | .loadInstr _ _ => []
  | .saveInstr _ _ inner => inner.deps
  | .otherCall _ args => refKeys args

/-- The filter of `_yield_tasks`: the head of the tuple (or the element
after apply) is a Task instance with save=True. -/
def GExpr.saveTask? {V : Type} : GExpr V → Option (TaskObj V)
  | .taskCall t _ => if t.save then some t else none
  | .applyCall t _ => if t.save then some t else none
  | _ => none

/-- The per-entry rewrite of the optimize_load loop: a yielded entry whose
key is already in the storage data becomes a load instruction; every other
entry is left as it is. -/
def loadRewrite {V : Type} (st : String → Option V) (k : String) (e : GExpr V) :
    GExpr V :=
  match e.saveTask? with
  | some t => if (st k).isSome then .loadInstr k t else e
  | none => e

/-- The mutation loop of optimize_load, before culling. -/
def replaceLoads {V : Type} (st : String → Option V)
    (g : List (String × GExpr V)) : List (String × GExpr V) :=
  g.map fun kv => (kv.1, loadRewrite st kv.1 kv.2)

/-- One breadth step of dask's reachability traversal: the given keys plus
every dependency of their entries. -/
def expandKeys {V : Type} (g : List (String × GExpr V)) (ks : List String) :
    List String :=
  ks ++ ks.flatMap fun k =>
    match g.lookup k with
    | some e => e.deps
    | none => []

/-- Iterated reachability frontier. -/
def reachList {V : Type} (g : List (String × GExpr V)) (ks : List String) :
    Nat → List String
  | 0 => ks
  | n + 1 => expandKeys g (reachList g ks n)

/-- Is the key needed for the requested outputs, that is, reached by the
traversal?  (Iterating the frontier as many times as the graph has entries
reaches every needed key, since a shortest dependency chain never repeats
a key.) -/
def needed {V : Type} (g : List (String × GExpr V)) (ks : List String)
    (k : String) : Bool :=
  k ∈ reachList g ks g.length

/-- `dask.optimization.cull`: restrict the graph to the keys needed for
the requested outputs. -/
def cull {V : Type} (g : List (String × GExpr V)) (ks : List String) :
    List (String × GExpr V) :=
  g.filter fun kv => needed g ks kv.1

/-- `Storage.optimize_load`: replace already-stored save-eligible entries
with load instructions, then cull. -/
def optimizeLoad {V : Type} (st : String → Option V)
    (g : List (String × GExpr V)) (ks : List String) : List (String × GExpr V) :=
  cull (replaceLoads st g) ks

/-- The per-entry rewrite of the optimize_save loop: a yielded entry is
wrapped in a save instruction holding the original tuple. -/
def saveRewrite {V : Type} (k : String) (e : GExpr V) : GExpr V :=
  match e.saveTask? with
  | some t => .saveInstr k t e
  | none => e

/-- `Storage.optimize_save`: wrap every yielded entry; the requested keys
are not consulted. -/
def optimizeSave {V : Type} (g : List (String × GExpr V)) (ks : List String) :
    List (String × GExpr V) :=
  g.map fun kv => (kv.1, saveRewrite kv.1 kv.2)

/-- Value of an argument slot under the engine's environment. -/
def evalArg {V : Type} (env : String → V) : GArg V → V
  | .ref k => env k
  | .lit v => v

/-- Evaluation of a single entry by the execution engine: env gives the
engine's value for each dependency key, st the storage data before the
node runs; the result is the node's value and the storage data after.
Only a save instruction writes (Storage.save stores task.encode(value)
and passes the value through); a load instruction reads the stored bytes
and decodes them (its key is only ever emitted for present keys; an
absent key would raise, modelled by the default value). -/
def GExpr.eval {V : Type} [Inhabited V] (env : String → V)
    (st : String → Option V) : GExpr V → V × (String → Option V)
  | .taskCall t args => (t.run (args.map (evalArg env)), st)
  | .applyCall t args => (t.run (args.map (evalArg env)), st)
  | .loadInstr k t =>
    (match st k with
     | some raw => t.decode raw
     | none => default, st)
  | .saveInstr k t inner =>
    let r := GExpr.eval env st inner
    (r.1, mapSet r.2 k (t.encode r.1))
  | .otherCall f args => (f (args.map (evalArg env)), st)

/-- Reachability from the requested keys, as dask's traversal walks the
graph. -/
inductive Reaches {V : Type} (g : List (String × GExpr V)) (ks : List String) :
    String → Prop
  | root {k : String} : k ∈ ks → Reaches g ks k
  | step {k k2 : String} {e : GExpr V} : Reaches g ks k → g.lookup k = some e →
      k2 ∈ e.deps → Reaches g ks k2

/-- Reachability that never expands from a key satisfying avoid: a key
NOT reachable this way is reachable (if at all) only through the avoided
keys. -/
inductive ReachesAvoiding {V : Type} (g : List (String × GExpr V))
    (ks : List String) (avoid : String → Prop) : String → Prop
  | root {k : String} : k ∈ ks → ReachesAvoiding g ks avoid k
  | step {k k2 : String} {e : GExpr V} : ReachesAvoiding g ks avoid k →
      ¬ avoid k → g.lookup k = some e → k2 ∈ e.deps →
      ReachesAvoiding g ks avoid k2

theorem lookup_map_keyed {B C : Type} (g : List (String × B))
    (f : String → B → C) (k : String) :
    (g.map fun kv => (kv.1, f kv.1 kv.2)).lookup k = (g.lookup k).map (f k) := by
  induction g with
  | nil => rfl
  | cons kv rest ih =>
    by_cases h : k = kv.1
    · simp [List.lookup, h]
    · have hb : (k == kv.1) = false := by simpa using h
      simp [List.lookup, hb, ih]

theorem lookup_filter_key {B : Type} (g : List (String × B)) (p : String → Bool)
    (k : String) :
    (g.filter fun kv => p kv.1).lookup k = if p k then g.lookup k else none := by
  induction g with
  | nil => simp [List.lookup]
  | cons kv rest ih =>
    rcases kv with ⟨a, b⟩
    by_cases hk : k = a
    · subst hk
      by_cases hp : p k = true
      · simp [List.filter_cons, hp, List.lookup]
      · have hpf : p k = false := by simpa using hp
        simp only [List.filter_cons, hpf, Bool.false_eq_true, if_false, ih]
    · have hb : (k == a) = false := by simpa using hk
      by_cases hp : p a = true
      · simp [List.filter_cons, hp, List.lookup, hb, ih]
      · have hpf : p a = false := by simpa using hp
        simp only [List.filter_cons, hpf, Bool.false_eq_true, if_false, ih]
        by_cases hq : p k = true <;> simp [hq, List.lookup, hb]

theorem lookup_replaceLoads {V : Type} (st : String → Option V)
    (g : List (String × GExpr V)) (k : String) :
    (replaceLoads st g).lookup k = (g.lookup k).map (loadRewrite st k) :=
  lookup_map_keyed g (loadRewrite st) k

theorem mem_reachList_of_root {V : Type} (g : List (String × GExpr V))
    (ks : List String) (k : String) (hk : k ∈ ks) :
    ∀ n, k ∈ reachList g ks n := by
  intro n
  induction n with
  | zero => exact hk
  | succ n ih => exact List.mem_append.mpr (Or.inl ih)

theorem reachList_sound {V : Type} (g : List (String × GExpr V))
    (ks : List String) :
    ∀ n x, x ∈ reachList g ks n → Reaches g ks x := by
  intro n
  induction n with
  | zero => exact fun x hx => .root hx
  | succ n ih =>
    intro x hx
    rcases List.mem_append.mp hx with hx | hx
    · exact ih x hx
    · rcases List.mem_flatMap.mp hx with ⟨k, hk, hdep⟩
      rcases hl : g.lookup k with _ | e
      · rw [hl] at hdep
        exact absurd hdep (List.not_mem_nil x)
      · rw [hl] at hdep
        exact .step (ih k hk) hl hdep

/-- A replaced key: save-eligible and already present in the storage
data — exactly the keys optimize_load turns into load instructions. -/
def ReplacedKey {V : Type} (st : String → Option V)
    (g : List (String × GExpr V)) (k : String) : Prop :=
  ∃ e t, g.lookup k = some e ∧ e.saveTask? = some t ∧ (st k).isSome = true

theorem reaches_replaced_avoiding {V : Type} (st : String → Option V)
    (g : List (String × GExpr V)) (ks : List String) (x : String)
    (hx : Reaches (replaceLoads st g) ks x) :
    ReachesAvoiding g ks (ReplacedKey st g) x := by
  induction hx with
  | root h => exact .root h
  | step hr hl hdep ih =>
    rename_i k k2 e2
    rw [lookup_replaceLoads] at hl
    rcases he : g.lookup k with _ | e
    · rw [he] at hl
      exact Option.noConfusion hl
    · rw [he] at hl
      have he2 : e2 = loadRewrite st k e := by
        injection hl with h
        exact h.symm
      rcases hst : e.saveTask? with _ | t
      · have hrw : loadRewrite st k e = e := by simp [loadRewrite, hst]
        refine .step ih ?_ he (by rw [← hrw, ← he2]; exact hdep)
        rintro ⟨e3, t3, he3, ht3, _⟩
        rw [he] at he3
        have : e3 = e := by
          injection he3 with h
          exact h.symm
        subst this
        rw [hst] at ht3
        exact Option.noConfusion ht3
      · by_cases hin : (st k).isSome = true
        · have hrw : loadRewrite st k e = .loadInstr k t := by
            simp [loadRewrite, hst, hin]
          rw [hrw] at he2
          subst he2
          simp [GExpr.deps] at hdep
        · have hrw : loadRewrite st k e = e := by
            simp only [loadRewrite, hst]
            rw [if_neg]
            simpa using hin
          refine .step ih ?_ he (by rw [← hrw, ← he2]; exact hdep)
          rintro ⟨e3, t3, he3, ht3, hin3⟩
          exact hin hin3

theorem reachesAvoiding_mono {V : Type} (g : List (String × GExpr V))
    (ks : List String) (avoid1 avoid2 : String → Prop)
    (hsub : ∀ k, avoid2 k → avoid1 k) (x : String)
    (hx : ReachesAvoiding g ks avoid1 x) : ReachesAvoiding g ks avoid2 x := by
  induction hx with
  | root h => exact .root h
  | step hr hnav hl hdep ih => exact .step ih (fun h2 => hnav (hsub _ h2)) hl hdep

/-- C2: if a save-eligible requested node B already has its key in the
storage data, optimize_load maps B to a pure load instruction whose
dependency list is empty, and every node A that the original graph reaches
from the requested keys only through B (not reachable at all when B may
not be expanded) is absent from the returned graph: the culling pass
removes it. -/
theorem C2_load_replaces_and_prunes {V : Type} (st : String → Option V)
    (g : List (String × GExpr V)) (ks : List String) (B A : String)
    (e : GExpr V) (t : TaskObj V)
    (hBlook : g.lookup B = some e) (hBt : e.saveTask? = some t)
    (hBst : (st B).isSome = true) (hBks : B ∈ ks)
    (hA : ¬ ReachesAvoiding g ks (fun k => k = B) A) :
    (optimizeLoad st g ks).lookup B = some (GExpr.loadInstr B t) ∧
    (GExpr.loadInstr B t : GExpr V).deps = [] ∧
    (optimizeLoad st g ks).lookup A = none := by
  have hg2B : (replaceLoads st g).lookup B = some (GExpr.loadInstr B t) := by
    rw [lookup_replaceLoads, hBlook]
    simp [loadRewrite, hBt, hBst]
  have hAnot : ∀ n, A ∉ reachList (replaceLoads st g) ks n := by
    intro n hn
    have h1 : Reaches (replaceLoads st g) ks A := reachList_sound _ ks n A hn
    have h2 : ReachesAvoiding g ks (ReplacedKey st g) A :=
      reaches_replaced_avoiding st g ks A h1
    have h3 : ReachesAvoiding g ks (fun k => k = B) A := by
      refine reachesAvoiding_mono g ks (ReplacedKey st g) (fun k => k = B) ?_ A h2
      intro k hk
      subst hk
      exact ⟨e, t, hBlook, hBt, hBst⟩
    exact hA h3
  have hBneed : needed (replaceLoads st g) ks B = true := by
    simp only [needed, decide_eq_true_eq]
    exact mem_reachList_of_root (replaceLoads st g) ks B hBks
      (replaceLoads st g).length
  have hAneed : needed (replaceLoads st g) ks A = false := by
    simp only [needed, decide_eq_false_iff_not]
    exact hAnot (replaceLoads st g).length
  refine ⟨?_, rfl, ?_⟩
  · unfold optimizeLoad cull
    rw [lookup_filter_key, hBneed, if_pos rfl]
    exact hg2B
  · unfold optimizeLoad cull
    rw [lookup_filter_key, hAneed]
    simp

/-- C3: every save-eligible entry that was not replaced by a load
instruction is rewritten into a save instruction around the original
tuple; evaluating the rewritten node returns exactly the original node's
value and additionally stores encode(value) under the node's key.  An
entry that is a load instruction is not touched by the save pass and its
evaluation never writes. -/
theorem C3_save_wraps {V : Type} [Inhabited V] (g : List (String × GExpr V))
    (ks : List String) (k : String) (e : GExpr V) (t : TaskObj V)
    (env : String → V) (st : String → Option V)
    (hk : g.lookup k = some e) (ht : e.saveTask? = some t) :
    (optimizeSave g ks).lookup k = some (GExpr.saveInstr k t e) ∧
    GExpr.eval env st (GExpr.saveInstr k t e)
      = ((GExpr.eval env st e).1,
         mapSet st k (t.encode (GExpr.eval env st e).1)) ∧
    (∀ k0 k2 t2, g.lookup k0 = some (GExpr.loadInstr k2 t2) →
      (optimizeSave g ks).lookup k0 = some (GExpr.loadInstr k2 t2)) ∧
    (∀ k2 t2, (GExpr.eval env st (GExpr.loadInstr k2 t2) : V × _).2 = st) := by
  refine ⟨?_, ?_, ?_, ?_⟩
  · rw [optimizeSave, lookup_map_keyed, hk]
    simp [saveRewrite, ht]
  · cases e with
    | taskCall t2 args => rfl
    | applyCall t2 args => rfl
    | loadInstr k2 t2 => simp [GExpr.saveTask?] at ht
    | saveInstr k2 t2 inner => simp [GExpr.saveTask?] at ht
    | otherCall f args => simp [GExpr.saveTask?] at ht
  · intro k0 k2 t2 h0
    rw [optimizeSave, lookup_map_keyed, h0]
    rfl
  · intro k2 t2
    rfl

/-- A save-eligible task for the concrete graph witnesses: sums its
arguments, encodes by adding 100. -/
def demoTaskSave : TaskObj Nat :=
  { save := true
  , run := fun args => args.foldl (fun a b => a + b) 0
  , encode := fun v => v + 100
  , decode := fun v => v - 100 }

/-- A non-persisted task for the concrete graph witnesses. -/
def demoTaskPlain : TaskObj Nat :=
  { save := false
  , run := fun _ => 7
  , encode := fun v => v
  , decode := fun v => v }

/-- A two-node graph: requesting node "b" (save-eligible) which depends on
node "a". -/
def demoGraph : List (String × GExpr Nat) :=
  [("b", .taskCall demoTaskSave [.ref "a"]),
   ("a", .taskCall demoTaskPlain [])]

/-- A storage whose data already holds node "b". -/
def demoStore : String → Option Nat :=
  fun k => if k = "b" then some 105 else none

/-- Witness for C2: on the concrete graph, optimize_load replaces "b" with
a load instruction and culls "a", which was needed only through "b". -/
theorem C2_load_replaces_and_prunes_witness :
    (optimizeLoad demoStore demoGraph ["b"]).lookup "b"
      = some (GExpr.loadInstr "b" demoTaskSave) ∧
    (optimizeLoad demoStore demoGraph ["b"]).lookup "a" = none := by
  have hA : ¬ ReachesAvoiding demoGraph ["b"] (fun k => k = "b") "a" := by
    intro h
    have honly : ∀ y, ReachesAvoiding demoGraph ["b"] (fun k => k = "b") y →
        y = "b" := by
      intro y hy
      induction hy with
      | root hm => simpa using hm
      | step hr hnav hlk hdep ih => exact absurd ih hnav
    exact absurd (honly "a" h) (by decide)
  have h := C2_load_replaces_and_prunes demoStore demoGraph ["b"] "b" "a"
    (GExpr.taskCall demoTaskSave [GArg.ref "a"]) demoTaskSave
    rfl rfl rfl (by simp) hA
  exact ⟨h.1, h.2.2⟩

/-- Witness for C3: on the concrete graph with an empty storage, the save
pass wraps "b"; evaluating the wrapped node yields the original value 7
and stores encode(7) = 107 under "b". -/
theorem C3_save_wraps_witness :
    (optimizeSave demoGraph ["b"]).lookup "b"
      = some (GExpr.saveInstr "b" demoTaskSave
          (GExpr.taskCall demoTaskSave [GArg.ref "a"])) ∧
    GExpr.eval (fun _ => 7) (fun _ => none)
        (GExpr.saveInstr "b" demoTaskSave
          (GExpr.taskCall demoTaskSave [GArg.ref "a"]))
      = (7, mapSet (fun _ => none) "b" 107) := by
  have h := C3_save_wraps demoGraph ["b"] "b"
    (GExpr.taskCall demoTaskSave [GArg.ref "a"]) demoTaskSave
    (fun _ => 7) (fun _ => none) rfl rfl
  refine ⟨h.1, ?_⟩
  rw [h.2.1]
  rfl

end DaskCheckpoint
